import Mathlib

/-!
Shallow embedding of the termset-based IR pipeline
(`infre/retrieval.py` and `infre/models/bmodel.py`).

Conventions of the embedding:
* terms are strings; document ids and term frequencies are naturals;
* a Python `dict` whose iteration order matters is an association list;
* the termset occurrence map is a list of pairs
  `(termset as list of terms, list of document ids)`;
* an inverted index is a function from a term to its posting list of
  `(document id, term frequency)` pairs;
* real (float) arithmetic is idealised as exact real arithmetic, with
  `round x 3` modelled by `round3`;
* document ids are 1-based and assumed to lie in `1..N`, matching the
  data-model invariant of the collection, so the Python column write
  `tf_ij[i, id-1]` is modelled by reading column `c` as document `c+1`;
* the single runtime failure mode of `calc_precision_recall`
  (`ZeroDivisionError` on an empty list of recorded values) is modelled
  by an `Option` result, `none` being the failure.
-/

/-- `round(x, 3)` of Python, idealised over the reals: round to the nearest
thousandth. -/
noncomputable def round3 (x : ℝ) : ℝ :=
  (round (x * 1000) : ℤ) / 1000

/-- The termset occurrence map: for each termset (a duplicate-free list of
terms), the list of document ids in which all of its terms co-occur, in
insertion order as a Python `dict` would keep it. -/
abbrev TermsetMap := List (List String × List ℕ)

/-- An inverted index: each term's posting list of
`(document id, term frequency)` pairs, as in `inv_index[term]['posting_list']`. -/
abbrev InvIndex := String → List (ℕ × ℕ)

/-- `calculate_ts_idf(termsets, N)` from `infre/retrieval.py`:
`[round(log2(1 + N/len(value)), 3) for value in termsets.values()]`. -/
noncomputable def calculate_ts_idf (termsets : TermsetMap) (N : ℕ) : List ℝ :=
  termsets.map (fun e => round3 (Real.logb 2 (1 + (N : ℝ) / (e.2.length : ℝ))))

/-- The `temp[id]` list built by the inner loops of `calculate_tsf`: for a
fixed document `id`, the term frequencies contributed by each term of the
termset whose posting list mentions `id`, kept only when `id` is in the
termset's document set. -/
def tempTfs (inv_index : InvIndex) (terms : List String) (docs : List ℕ)
    (id : ℕ) : List ℕ :=
  terms.flatMap
    (fun t => ((inv_index t).filter
      (fun p => p.1 == id && docs.contains p.1)).map Prod.snd)

/-- `calculate_tsf(termsets, inv_index, N)` from `infre/retrieval.py`: the
`len(termsets) × N` matrix (as a list of rows) that holds, for each termset
and each document that received frequencies in `temp`, the value
`round(1 + log2(min(tfs)), 3)`, every other cell staying at its initial `0`. -/
noncomputable def calculate_tsf (termsets : TermsetMap) (inv_index : InvIndex)
    (N : ℕ) : List (List ℝ) :=
  termsets.map (fun e =>
    (List.range N).map (fun c =>
      match (tempTfs inv_index e.1 e.2 (c + 1)).min? with
      | some m => round3 (1 + Real.logb 2 (m : ℝ))
      | none => 0))

/-- `calculate_tnw(termsets, nwk)` from `infre/retrieval.py`: for each termset
of the occurrence map, the running product over its terms of `nwk[term]`
(terms absent from `nwk` are skipped), rounded to 3 decimals. -/
noncomputable def calculate_tnw (termsets : TermsetMap)
    (nwk : String → Option ℝ) : List ℝ :=
  termsets.map (fun e => round3 (e.1.foldl
    (fun acc t =>
      match nwk t with
      | some w => acc * w
      | none => acc) 1))

/-- `dot(u, v)` of numpy on equal-length 1-D arrays. -/
def dot (u v : List ℝ) : ℝ :=
  (List.zipWith (fun a b => a * b) u v).sum

/-- `norm(u)` of `numpy.linalg`: the Euclidean norm. -/
noncomputable def l2norm (u : List ℝ) : ℝ :=
  Real.sqrt ((u.map (fun x => x ^ 2)).sum)

/-- `all(u == 0)` of numpy: every entry is zero. -/
def allZero (u : List ℝ) : Prop :=
  ∀ x ∈ u, x = 0

open Classical in
/-- `cosine_similarity(u, v)` from `infre/retrieval.py`: `0` when either
vector is all-zero, else `dot(u,v) / (norm(u)*norm(v))`. -/
noncomputable def cosine_similarity (u v : List ℝ) : ℝ :=
  if allZero u ∨ allZero v then 0
  else dot u v / (l2norm u * l2norm v)

/-- Column `d` (0-based) of a matrix stored as a list of rows; this is the
row of index `d` of `dtm.T`. -/
def col (dtm : List (List ℝ)) (d : ℕ) : List ℝ :=
  dtm.map (fun row => row.getD d 0)

open Classical in
/-- `BaseIRModel.qd_similarities(query, dtsm)` from `infre/models/bmodel.py`:
the dictionary `{id: cosine_similarity(query, dv)}` over the `N` columns of
the matrix, ids starting at 1, in column order. -/
noncomputable def qd_similarities (query : List ℝ) (dtm : List (List ℝ))
    (N : ℕ) : List (ℕ × ℝ) :=
  (List.range N).map (fun d => (d + 1, cosine_similarity query (col dtm d)))

open Classical in
/-- `BaseIRModel.rank_documents(qd_sims)` from `infre/models/bmodel.py`:
`sorted(qd_sims.items(), key=lambda item: item[1], reverse=True)` rebuilt
into a dict, i.e. a stable sort by descending similarity. -/
noncomputable def rank_documents (qd_sims : List (ℕ × ℝ)) : List (ℕ × ℝ) :=
  qd_sims.mergeSort (fun a b => decide (b.2 ≤ a.2))

/-- `evaluate_sim(query, dtm)` from `infre/retrieval.py`: build the
similarity dict over all `N` columns of `dtm` and return it sorted by
descending similarity. -/
noncomputable def evaluate_sim (query : List ℝ) (dtm : List (List ℝ))
    (N : ℕ) : List (ℕ × ℝ) :=
  rank_documents (qd_similarities query dtm N)

/-- The `precision` and `recall` lists accumulated by the loop of
`calc_precision_recall`: walking the ranked ids with running hit count `cnt`
and 1-based position `retrieved`, a relevant id appends
`(cnt+1)/retrieved` and `(cnt+1)/len(relevant)`. -/
noncomputable def prLists (rel : Finset ℕ) :
    List ℕ → ℕ → ℕ → List ℝ × List ℝ
  | [], _, _ => ([], [])
  | d :: ds, cnt, retrieved =>
    if d ∈ rel then
      let rest := prLists rel ds (cnt + 1) (retrieved + 1)
      (((cnt + 1 : ℕ) : ℝ) / (retrieved : ℝ) :: rest.1,
       ((cnt + 1 : ℕ) : ℝ) / (rel.card : ℝ) :: rest.2)
    else
      prLists rel ds cnt (retrieved + 1)

/-- `calc_precision_recall(sim_docs, relevant)` from `infre/retrieval.py`:
the pair of averages of the recorded precision and recall lists; `none`
models the `ZeroDivisionError` raised by `sum(precision)/len(precision)`
when no value was recorded. -/
noncomputable def calc_precision_recall (sim_docs : List ℕ)
    (relevant : Finset ℕ) : Option (ℝ × ℝ) :=
  if (prLists relevant sim_docs 0 1).1.length = 0 then none
  else some
    ((prLists relevant sim_docs 0 1).1.sum
        / ((prLists relevant sim_docs 0 1).1.length : ℝ),
     (prLists relevant sim_docs 0 1).2.sum
        / ((prLists relevant sim_docs 0 1).2.length : ℝ))

namespace BaseIRModel

/-- `BaseIRModel.query2vec(self, termsets)` from `infre/models/bmodel.py`,
with `num_docs` standing for `self.collection.num_docs`:
`[round(log2(1 + N/len(value)), 3) for value in termsets.values()]`. -/
noncomputable def query2vec (termsets : TermsetMap) (num_docs : ℕ) : List ℝ :=
  termsets.map (fun e => round3 (Real.logb 2 (1 + (num_docs : ℝ) / (e.2.length : ℝ))))

/-- The `temp[id]` list built by the inner loops of
`BaseIRModel.termsets2vec`, duplicated verbatim from `calculate_tsf`. -/
def tempTfsB (inv_index : InvIndex) (terms : List String) (docs : List ℕ)
    (id : ℕ) : List ℕ :=
  terms.flatMap
    (fun t => ((inv_index t).filter
      (fun p => p.1 == id && docs.contains p.1)).map Prod.snd)

/-- `BaseIRModel.termsets2vec(self, termsets)` from `infre/models/bmodel.py`,
with `num_docs` for `self.collection.num_docs` and `inv_index` for
`self.collection.inverted_index`; the body duplicates `calculate_tsf`. -/
noncomputable def termsets2vec (termsets : TermsetMap) (inv_index : InvIndex)
    (num_docs : ℕ) : List (List ℝ) :=
  termsets.map (fun e =>
    (List.range num_docs).map (fun c =>
      match (tempTfsB inv_index e.1 e.2 (c + 1)).min? with
      | some m => round3 (1 + Real.logb 2 (m : ℝ))
      | none => 0))

end BaseIRModel

/-- The term frequency of term `t` in document `d` as recorded in the
inverted index: the frequency of the posting for `d` in `t`'s posting list,
`0` when there is none. -/
def tfOf (inv_index : InvIndex) (t : String) (d : ℕ) : ℕ :=
  match (inv_index t).find? (fun p => p.1 == d) with
  | some p => p.2
  | none => 0

/-- The minimum, over the terms of a termset, of the term frequency in
document `d` (the claim's `min over t in S of tf(t, d)`). -/
def minTf (inv_index : InvIndex) (terms : List String) (d : ℕ) : ℕ :=
  ((terms.map (fun t => tfOf inv_index t d)).min?).getD 0

/-- The running count of relevant documents among the first `k` ranked ids
(the claim's `hits` at position `k`). -/
def hitsAt (docs : List ℕ) (rel : Finset ℕ) (k : ℕ) : ℕ :=
  ((docs.take k).filter (fun d => d ∈ rel)).length

/-- The precision values the claim describes: at each 1-based position `i+1`
whose document is relevant, the value `hits/(i+1)`. -/
noncomputable def claimPrecisions (docs : List ℕ) (rel : Finset ℕ) : List ℝ :=
  (List.range docs.length).filterMap (fun i =>
    if docs.getD i 0 ∈ rel then
      some ((hitsAt docs rel (i + 1) : ℝ) / ((i + 1 : ℕ) : ℝ))
    else none)

/-- The recall values the claim describes: at each 1-based position `i+1`
whose document is relevant, the value `hits/|relevant|`. -/
noncomputable def claimRecalls (docs : List ℕ) (rel : Finset ℕ) : List ℝ :=
  (List.range docs.length).filterMap (fun i =>
    if docs.getD i 0 ∈ rel then
      some ((hitsAt docs rel (i + 1) : ℝ) / (rel.card : ℝ))
    else none)

/-- A concrete two-document inverted index (the spec's Scenario A data:
`a:[(1,2),(2,1)]`, `b:[(1,1),(2,3)]`), used for closed witnesses. -/
def exInv : InvIndex := fun t =>
  if t = "a" then [(1, 2), (2, 1)]
  else if t = "b" then [(1, 1), (2, 3)]
  else []

/-! ## Helper lemmas -/

theorem round3_zero : round3 0 = 0 := by
  simp [round3]

theorem round3_nonneg {x : ℝ} (hx : 0 ≤ x) : 0 ≤ round3 x := by
  unfold round3
  apply div_nonneg _ (by norm_num)
  have h : (0 : ℤ) ≤ round (x * 1000) := by
    rw [round_eq]
    exact Int.le_floor.2 (by push_cast; linarith)
  exact_mod_cast h

theorem l2norm_pos_of_not_allZero {u : List ℝ} (hu : ¬ allZero u) :
    0 < l2norm u := by
  rw [allZero] at hu
  push_neg at hu
  obtain ⟨x, hx, hx0⟩ := hu
  have hsq : x ^ 2 ∈ u.map (fun y => y ^ 2) := List.mem_map_of_mem _ hx
  have hle : x ^ 2 ≤ (u.map (fun y => y ^ 2)).sum := by
    refine List.single_le_sum ?_ _ hsq
    intro y hy
    obtain ⟨z, _, rfl⟩ := List.mem_map.1 hy
    positivity
  have hpos : 0 < (u.map (fun y => y ^ 2)).sum :=
    lt_of_lt_of_le (by positivity) hle
  exact Real.sqrt_pos.2 hpos

theorem foldl_nwk_mul (nwk : String → Option ℝ) (l : List String) (a : ℝ) :
    l.foldl
      (fun acc t =>
        match nwk t with
        | some w => acc * w
        | none => acc) a
      = a * (l.map (fun t => (nwk t).getD 1)).prod := by
  induction l generalizing a with
  | nil => simp
  | cons t l ih =>
    simp only [List.foldl_cons, List.map_cons, List.prod_cons]
    cases h : nwk t with
    | none => rw [ih]; simp
    | some w => rw [ih]; simp [mul_assoc]

theorem prLists_fst_eq_nil_iff (rel : Finset ℕ) (ds : List ℕ) (cnt k : ℕ) :
    (prLists rel ds cnt k).1 = [] ↔ ∀ d ∈ ds, d ∉ rel := by
  induction ds generalizing cnt k with
  | nil => simp [prLists]
  | cons d ds ih =>
    by_cases hd : d ∈ rel
    · simp [prLists, hd]
    · simp [prLists, hd, ih]

theorem calc_pr_none_iff (sim_docs : List ℕ) (relevant : Finset ℕ) :
    calc_precision_recall sim_docs relevant = none
      ↔ ∀ d ∈ sim_docs, d ∉ relevant := by
  rw [← prLists_fst_eq_nil_iff relevant sim_docs 0 1, ← List.length_eq_zero]
  unfold calc_precision_recall
  split <;> simp_all

/-! ## Claim theorems -/

/-- C10: the module-level helpers `calculate_ts_idf` and `calculate_tsf` of
`retrieval.py` compute the same functions as the duplicated methods
`BaseIRModel.query2vec` and `BaseIRModel.termsets2vec` of `bmodel.py`, on
every termset occurrence map, inverted index and collection size. -/
theorem helpers_eq_model_methods :
    ∀ (termsets : TermsetMap) (inv_index : InvIndex) (N : ℕ),
      calculate_ts_idf termsets N = BaseIRModel.query2vec termsets N
      ∧ calculate_tsf termsets inv_index N
          = BaseIRModel.termsets2vec termsets inv_index N :=
  fun _ _ _ => ⟨rfl, rfl⟩

/-- C6: for equal-length vectors, `cosine_similarity` returns exactly `0`
whenever either vector is all-zero, and otherwise the denominator
`norm(u)*norm(v)` of the division it performs is non-zero. -/
theorem cosine_similarity_zero_contract (u v : List ℝ)
    (h : u.length = v.length) :
    ((allZero u ∨ allZero v) → cosine_similarity u v = 0)
    ∧ (¬ allZero u → ¬ allZero v → l2norm u * l2norm v ≠ 0) := by
  constructor
  · intro hz
    rw [cosine_similarity, if_pos hz]
  · intro hu hv
    exact ne_of_gt
      (mul_pos (l2norm_pos_of_not_allZero hu) (l2norm_pos_of_not_allZero hv))

/-- Closed witness for C6 at `u = [1]`, `v = [2]`. -/
theorem cosine_similarity_zero_contract_witness :
    ((allZero [(1 : ℝ)] ∨ allZero [(2 : ℝ)]) → cosine_similarity [1] [2] = 0)
    ∧ (¬ allZero [(1 : ℝ)] → ¬ allZero [(2 : ℝ)]
        → l2norm [(1 : ℝ)] * l2norm [(2 : ℝ)] ≠ 0) :=
  cosine_similarity_zero_contract [1] [2] rfl

/-- C7: when the per-term weight map `nwk` is defined on every term of every
termset, each entry of `calculate_tnw` is the product of the per-term
weights of the termset's terms, rounded to 3 decimals; and any termset a
term of which has weight `0` gets value `0`. -/
theorem calculate_tnw_spec (termsets : TermsetMap) (nwk : String → Option ℝ)
    (hdef : ∀ e ∈ termsets, ∀ t ∈ e.1, (nwk t).isSome) :
    calculate_tnw termsets nwk
      = termsets.map (fun e => round3 ((e.1.map (fun t => (nwk t).getD 1)).prod))
    ∧ ∀ e ∈ termsets, (∃ t ∈ e.1, nwk t = some 0) →
        round3 ((e.1.map (fun t => (nwk t).getD 1)).prod) = 0 := by
  constructor
  · unfold calculate_tnw
    refine List.map_congr_left ?_
    intro e _
    rw [foldl_nwk_mul, one_mul]
  · rintro e _ ⟨t, ht, ht0⟩
    have h0 : (0 : ℝ) ∈ e.1.map (fun t => (nwk t).getD 1) := by
      refine List.mem_map.2 ⟨t, ht, ?_⟩
      simp [ht0]
    rw [List.prod_eq_zero h0, round3_zero]

/-- Closed witness for C7 at a one-termset map and the constant weight 2. -/
theorem calculate_tnw_spec_witness :
    calculate_tnw [([ "a" ], [1])] (fun _ => some (2 : ℝ))
      = [([ "a" ], [1])].map
          (fun e => round3 ((e.1.map (fun t => ((fun _ => some (2 : ℝ)) t).getD 1)).prod))
    ∧ ∀ e ∈ [([ "a" ], [1])], (∃ t ∈ e.1, (fun _ => some (2 : ℝ)) t = some 0) →
        round3 ((e.1.map (fun t => ((fun _ => some (2 : ℝ)) t).getD 1)).prod) = 0 :=
  calculate_tnw_spec [([ "a" ], [1])] (fun _ => some (2 : ℝ))
    (by intro e _ t _; simp)

/-- C3: for a positive collection size `N` and an occurrence map whose
document lists are non-empty of length at most `N`, `calculate_ts_idf` has
one entry per termset in enumeration order, each equal to
`round(log2(1 + N/|docs|), 3)`, and no entry is below `0`. -/
theorem calculate_ts_idf_spec (termsets : TermsetMap) (N : ℕ) (hN : 0 < N)
    (h : ∀ e ∈ termsets, e.2 ≠ [] ∧ e.2.length ≤ N) :
    (calculate_ts_idf termsets N).length = termsets.length
    ∧ (∀ i, i < termsets.length →
        (calculate_ts_idf termsets N).getD i 0
          = round3 (Real.logb 2
              (1 + (N : ℝ) / (((termsets.getD i ([], [])).2.length : ℕ) : ℝ))))
    ∧ ∀ x ∈ calculate_ts_idf termsets N, 0 ≤ x := by
  refine ⟨by simp [calculate_ts_idf], ?_, ?_⟩
  · intro i hi
    rw [calculate_ts_idf, List.getD_eq_getElem?_getD, List.getElem?_map,
      List.getElem?_eq_getElem hi, List.getD_eq_getElem?_getD,
      List.getElem?_eq_getElem hi]
    rfl
  · intro x hx
    obtain ⟨e, _, rfl⟩ := List.mem_map.1 hx
    refine round3_nonneg (Real.logb_nonneg (by norm_num) ?_)
    have hq : (0 : ℝ) ≤ (N : ℝ) / ((e.2.length : ℕ) : ℝ) := by positivity
    linarith

/-- Closed witness for C3 at a one-termset map with `N = 2`. -/
theorem calculate_ts_idf_spec_witness :
    (calculate_ts_idf [([ "a" ], [1])] 2).length = ([([ "a" ], [1])] : TermsetMap).length
    ∧ (∀ i, i < ([([ "a" ], [1])] : TermsetMap).length →
        (calculate_ts_idf [([ "a" ], [1])] 2).getD i 0
          = round3 (Real.logb 2
              (1 + ((2 : ℕ) : ℝ)
                / (((([([ "a" ], [1])] : TermsetMap).getD i ([], [])).2.length : ℕ) : ℝ))))
    ∧ ∀ x ∈ calculate_ts_idf [([ "a" ], [1])] 2, 0 ≤ x :=
  calculate_ts_idf_spec [([ "a" ], [1])] 2 (by decide) (by decide)

/-- C9: as implemented, `calc_precision_recall` hits its division-by-zero
failure exactly when no ranked id belongs to the relevance set — in
particular also for a non-empty relevance set disjoint from the ranking. -/
theorem calc_precision_recall_none_iff_no_hit (sim_docs : List ℕ)
    (relevant : Finset ℕ) :
    calc_precision_recall sim_docs relevant = none
      ↔ ∀ d ∈ sim_docs, d ∉ relevant :=
  calc_pr_none_iff sim_docs relevant

/-- C4 counterexample: the relevance set `{2}` is non-empty, yet
`calc_precision_recall [1] {2}` still fails (the ranking contains no
relevant document), refuting the claim's second half. -/
theorem calc_precision_recall_nonempty_can_fail :
    ({2} : Finset ℕ) ≠ ∅
    ∧ calc_precision_recall [1] ({2} : Finset ℕ) = none := by
  refine ⟨by decide, ?_⟩
  rw [calc_pr_none_iff]
  decide

/-- C4 (amended): `calc_precision_recall` fails on an empty relevance set,
and does not fail whenever at least one ranked document is relevant. -/
theorem calc_precision_recall_failure_condition (docs : List ℕ)
    (rel : Finset ℕ) :
    (rel = ∅ → calc_precision_recall docs rel = none)
    ∧ ((∃ d ∈ docs, d ∈ rel) → calc_precision_recall docs rel ≠ none) := by
  constructor
  · intro h
    rw [calc_pr_none_iff]
    intro d _
    simp [h]
  · rintro ⟨d, hd, hdr⟩ hnone
    exact (calc_pr_none_iff docs rel).1 hnone d hd hdr

/-- Closed witness for C4's amended claim at `docs = [2]`, `rel = {2}` and
`rel = ∅`. -/
theorem calc_precision_recall_failure_condition_witness :
    calc_precision_recall [2] (∅ : Finset ℕ) = none
    ∧ calc_precision_recall [2] ({2} : Finset ℕ) ≠ none :=
  ⟨(calc_precision_recall_failure_condition [2] ∅).1 rfl,
   (calc_precision_recall_failure_condition [2] {2}).2 ⟨2, by decide, by decide⟩⟩

theorem hitsAt_cons_succ (d : ℕ) (ds : List ℕ) (rel : Finset ℕ) (k : ℕ) :
    hitsAt (d :: ds) rel (k + 1)
      = (if d ∈ rel then 1 else 0) + hitsAt ds rel k := by
  by_cases hd : d ∈ rel <;>
    simp [hitsAt, List.take_succ_cons, List.filter_cons, hd, Nat.add_comm]

theorem prLists_eq_claim (rel : Finset ℕ) (ds : List ℕ) (cnt k : ℕ) :
    (prLists rel ds cnt k).1
      = (List.range ds.length).filterMap (fun i =>
          if ds.getD i 0 ∈ rel then
            some (((cnt + hitsAt ds rel (i + 1) : ℕ) : ℝ) / ((k + i : ℕ) : ℝ))
          else none)
    ∧ (prLists rel ds cnt k).2
      = (List.range ds.length).filterMap (fun i =>
          if ds.getD i 0 ∈ rel then
            some (((cnt + hitsAt ds rel (i + 1) : ℕ) : ℝ) / (rel.card : ℝ))
          else none) := by
  induction ds generalizing cnt k with
  | nil => simp [prLists]
  | cons d ds ih =>
    have hrange : List.range (d :: ds).length
        = 0 :: (List.range ds.length).map Nat.succ := by
      simp [List.range_succ_eq_map]
    have htail : ∀ (den : ℕ → ℝ),
        List.filterMap (fun i =>
          if (d :: ds).getD i 0 ∈ rel then
            some (((cnt + hitsAt (d :: ds) rel (i + 1) : ℕ) : ℝ) / den i)
          else none) ((List.range ds.length).map Nat.succ)
        = List.filterMap (fun i =>
          if ds.getD i 0 ∈ rel then
            some ((((cnt + if d ∈ rel then 1 else 0) + hitsAt ds rel (i + 1) : ℕ) : ℝ)
              / den (i + 1))
          else none) (List.range ds.length) := by
      intro den
      rw [List.filterMap_map]
      refine List.filterMap_congr ?_
      intro i _
      simp only [Function.comp_apply, Nat.succ_eq_add_one, List.getD_cons_succ,
        hitsAt_cons_succ]
      by_cases hi : ds.getD i 0 ∈ rel <;> by_cases hd : d ∈ rel <;>
        simp [hi, hd, hitsAt, Nat.add_assoc, Nat.add_comm, Nat.add_left_comm]
    by_cases hd : d ∈ rel
    · constructor
      · rw [(show (prLists rel (d :: ds) cnt k).1
            = ((cnt + 1 : ℕ) : ℝ) / (k : ℝ) :: (prLists rel ds (cnt + 1) (k + 1)).1
            by simp [prLists, hd]),
          hrange, List.filterMap_cons, htail (fun i => ((k + i : ℕ) : ℝ))]
        simp only [List.getD_cons_zero, hd, if_pos, hitsAt, List.take_succ_cons,
          List.take_zero, List.filter_cons]
        rw [(ih (cnt + 1) (k + 1)).1]
        refine congrArg₂ _ ?_ (List.filterMap_congr ?_)
        · simp [hd]
        · intro i _
          by_cases hi : ds.getD i 0 ∈ rel <;>
            simp [hi, hd, hitsAt, Nat.add_assoc, Nat.add_comm, Nat.add_left_comm]
      · rw [(show (prLists rel (d :: ds) cnt k).2
            = ((cnt + 1 : ℕ) : ℝ) / (rel.card : ℝ) :: (prLists rel ds (cnt + 1) (k + 1)).2
            by simp [prLists, hd]),
          hrange, List.filterMap_cons, htail (fun _ => (rel.card : ℝ))]
        simp only [List.getD_cons_zero, hd, if_pos, hitsAt, List.take_succ_cons,
          List.take_zero, List.filter_cons]
        rw [(ih (cnt + 1) (k + 1)).2]
        refine congrArg₂ _ ?_ (List.filterMap_congr ?_)
        · simp [hd]
        · intro i _
          by_cases hi : ds.getD i 0 ∈ rel <;>
            simp [hi, hd, hitsAt, Nat.add_assoc, Nat.add_comm, Nat.add_left_comm]
    · constructor
      · rw [(show (prLists rel (d :: ds) cnt k).1
            = (prLists rel ds cnt (k + 1)).1 by simp [prLists, hd]),
          hrange, List.filterMap_cons, htail (fun i => ((k + i : ℕ) : ℝ))]
        simp only [List.getD_cons_zero, hd, if_neg, not_false_iff]
        rw [(ih cnt (k + 1)).1]
        refine List.filterMap_congr ?_
        intro i _
        by_cases hi : ds.getD i 0 ∈ rel <;>
          simp [hi, hd, hitsAt, Nat.add_assoc, Nat.add_comm, Nat.add_left_comm]
      · rw [(show (prLists rel (d :: ds) cnt k).2
            = (prLists rel ds cnt (k + 1)).2 by simp [prLists, hd]),
          hrange, List.filterMap_cons, htail (fun _ => (rel.card : ℝ))]
        simp only [List.getD_cons_zero, hd, if_neg, not_false_iff]
        rw [(ih cnt (k + 1)).2]
        refine List.filterMap_congr ?_
        intro i _
        by_cases hi : ds.getD i 0 ∈ rel <;>
          simp [hi, hd, hitsAt, Nat.add_assoc, Nat.add_comm, Nat.add_left_comm]

/-- C1: on a duplicate-free ranking with at least one relevant ranked
document, `calc_precision_recall` returns exactly the average of the
`hits/position` values and the average of the `hits/|relevant|` values
recorded at the relevant positions, as described by `claimPrecisions` and
`claimRecalls`. -/
theorem calc_precision_recall_eq_averages (docs : List ℕ) (rel : Finset ℕ)
    (hnd : docs.Nodup) (hex : ∃ d ∈ docs, d ∈ rel) :
    calc_precision_recall docs rel
      = some ((claimPrecisions docs rel).sum / ((claimPrecisions docs rel).length : ℝ),
              (claimRecalls docs rel).sum / ((claimRecalls docs rel).length : ℝ)) := by
  have h1 : (prLists rel docs 0 1).1 = claimPrecisions docs rel := by
    rw [(prLists_eq_claim rel docs 0 1).1, claimPrecisions]
    refine List.filterMap_congr ?_
    intro i _
    by_cases hi : docs.getD i 0 ∈ rel <;>
      simp [hi, Nat.add_comm]
  have h2 : (prLists rel docs 0 1).2 = claimRecalls docs rel := by
    rw [(prLists_eq_claim rel docs 0 1).2, claimRecalls]
    refine List.filterMap_congr ?_
    intro i _
    by_cases hi : docs.getD i 0 ∈ rel <;>
      simp [hi, Nat.add_comm]
  have hne : ¬ (prLists rel docs 0 1).1.length = 0 := by
    rw [List.length_eq_zero, prLists_fst_eq_nil_iff]
    push_neg
    exact hex
  rw [calc_precision_recall, if_neg hne, h1, h2]

/-- Closed witness for C1 at `docs = [1, 2]`, `rel = {1}`. -/
theorem calc_precision_recall_eq_averages_witness :
    calc_precision_recall [1, 2] ({1} : Finset ℕ)
      = some ((claimPrecisions [1, 2] {1}).sum / ((claimPrecisions [1, 2] {1}).length : ℝ),
              (claimRecalls [1, 2] {1}).sum / ((claimRecalls [1, 2] {1}).length : ℝ)) :=
  calc_precision_recall_eq_averages [1, 2] {1} (by decide) ⟨1, by decide, by decide⟩

theorem prLists_fst_bounds (rel : Finset ℕ) (ds : List ℕ) :
    ∀ (cnt k : ℕ), cnt < k →
      ∀ p ∈ (prLists rel ds cnt k).1, 0 ≤ p ∧ p ≤ 1 := by
  induction ds with
  | nil => intro cnt k _ p hp; simp [prLists] at hp
  | cons d ds ih =>
    intro cnt k hck p hp
    by_cases hd : d ∈ rel
    · simp only [prLists, if_pos hd] at hp
      rcases List.mem_cons.1 hp with hp | hp
      · subst hp
        have hk : (0 : ℝ) < (k : ℝ) := by
          exact_mod_cast Nat.lt_of_le_of_lt (Nat.zero_le cnt) hck
        constructor
        · positivity
        · rw [div_le_one hk]
          exact_mod_cast hck
      · exact ih (cnt + 1) (k + 1) (by omega) p hp
    · simp only [prLists, if_neg hd] at hp
      exact ih cnt (k + 1) (by omega) p hp

theorem prLists_snd_bounds (rel : Finset ℕ) (ds : List ℕ) :
    ∀ (cnt k : ℕ) (S : Finset ℕ), S ⊆ rel → S.card = cnt →
      (∀ d ∈ ds, d ∉ S) → ds.Nodup →
      ∀ r ∈ (prLists rel ds cnt k).2, 0 ≤ r ∧ r ≤ 1 := by
  induction ds with
  | nil => intro cnt k S _ _ _ _ r hr; simp [prLists] at hr
  | cons d ds ih =>
    intro cnt k S hS hcard hdisj hnd r hr
    have hnd' : ds.Nodup := (List.nodup_cons.1 hnd).2
    by_cases hd : d ∈ rel
    · simp only [prLists, if_pos hd] at hr
      have hins : insert d S ⊆ rel := by
        intro x hx
        rcases Finset.mem_insert.1 hx with rfl | hx
        · exact hd
        · exact hS hx
      have hcard' : (insert d S).card = cnt + 1 := by
        rw [Finset.card_insert_of_not_mem (hdisj d (List.mem_cons_self d ds))]
        omega
      rcases List.mem_cons.1 hr with hr | hr
      · subst hr
        have hle : cnt + 1 ≤ rel.card := by
          rw [← hcard']
          exact Finset.card_le_card hins
        have hpos : (0 : ℝ) < (rel.card : ℝ) := by
          have : 0 < rel.card := by omega
          exact_mod_cast this
        constructor
        · positivity
        · rw [div_le_one hpos]
          exact_mod_cast hle
      · refine ih (cnt + 1) (k + 1) (insert d S) hins hcard' ?_ hnd' r hr
        intro x hx
        rw [Finset.mem_insert]
        push_neg
        exact ⟨fun hxd => (List.nodup_cons.1 hnd).1 (hxd ▸ hx),
          hdisj x (List.mem_cons_of_mem d hx)⟩
    · simp only [prLists, if_neg hd] at hr
      exact ih cnt (k + 1) S hS hcard
        (fun x hx => hdisj x (List.mem_cons_of_mem d hx)) hnd' r hr

theorem prLists_snd_lower (rel : Finset ℕ) (ds : List ℕ) :
    ∀ (cnt k : ℕ), ∀ r ∈ (prLists rel ds cnt k).2,
      (cnt : ℝ) / (rel.card : ℝ) ≤ r := by
  induction ds with
  | nil => intro cnt k r hr; simp [prLists] at hr
  | cons d ds ih =>
    intro cnt k r hr
    have hstep : (cnt : ℝ) / (rel.card : ℝ) ≤ ((cnt + 1 : ℕ) : ℝ) / (rel.card : ℝ) := by
      rcases Nat.eq_zero_or_pos rel.card with h0 | h0
      · simp [h0]
      · have hpos : (0 : ℝ) < (rel.card : ℝ) := by exact_mod_cast h0
        rw [div_le_div_iff_of_pos_right hpos]
        push_cast
        linarith
    by_cases hd : d ∈ rel
    · simp only [prLists, if_pos hd] at hr
      rcases List.mem_cons.1 hr with hr | hr
      · subst hr; exact hstep
      · exact le_trans hstep (ih (cnt + 1) (k + 1) r hr)
    · simp only [prLists, if_neg hd] at hr
      exact ih cnt (k + 1) r hr

theorem prLists_snd_pairwise (rel : Finset ℕ) (ds : List ℕ) :
    ∀ (cnt k : ℕ), (prLists rel ds cnt k).2.Pairwise (fun a b => a ≤ b) := by
  induction ds with
  | nil => intro cnt k; simp [prLists]
  | cons d ds ih =>
    intro cnt k
    by_cases hd : d ∈ rel
    · simp only [prLists, if_pos hd]
      exact List.Pairwise.cons
        (fun r hr => prLists_snd_lower rel ds (cnt + 1) (k + 1) r hr)
        (ih (cnt + 1) (k + 1))
    · simp only [prLists, if_neg hd]
      exact ih cnt (k + 1)

/-- C8: on a duplicate-free ranking with at least one relevant ranked
document, every recorded precision and every recorded recall of
`calc_precision_recall`'s loop lies in `[0, 1]`, and the recorded recall
values are non-decreasing in rank order. -/
theorem precision_recall_bounds (docs : List ℕ) (rel : Finset ℕ)
    (hnd : docs.Nodup) (hex : ∃ d ∈ docs, d ∈ rel) :
    (∀ p ∈ (prLists rel docs 0 1).1, 0 ≤ p ∧ p ≤ 1)
    ∧ (∀ r ∈ (prLists rel docs 0 1).2, 0 ≤ r ∧ r ≤ 1)
    ∧ (prLists rel docs 0 1).2.Pairwise (fun a b => a ≤ b) :=
  ⟨prLists_fst_bounds rel docs 0 1 (by omega),
   prLists_snd_bounds rel docs 0 1 ∅ (Finset.empty_subset rel) rfl
     (by intro d _; exact Finset.not_mem_empty d) hnd,
   prLists_snd_pairwise rel docs 0 1⟩

/-- Closed witness for C8 at `docs = [1, 2]`, `rel = {1}`. -/
theorem precision_recall_bounds_witness :
    (∀ p ∈ (prLists ({1} : Finset ℕ) [1, 2] 0 1).1, 0 ≤ p ∧ p ≤ 1)
    ∧ (∀ r ∈ (prLists ({1} : Finset ℕ) [1, 2] 0 1).2, 0 ≤ r ∧ r ≤ 1)
    ∧ (prLists ({1} : Finset ℕ) [1, 2] 0 1).2.Pairwise (fun a b => a ≤ b) :=
  precision_recall_bounds [1, 2] {1} (by decide) ⟨1, by decide, by decide⟩

/-- C5: ranking with `evaluate_sim` keeps exactly the document ids `1..N`
(no filtering), pairs each id with the cosine similarity of the query with
that document's column, and enumerates the pairs in non-increasing order of
similarity. -/
theorem evaluate_sim_spec (query : List ℝ) (dtm : List (List ℝ)) (N : ℕ) :
    ((evaluate_sim query dtm N).map Prod.fst).Perm
        ((List.range N).map (fun d => d + 1))
    ∧ (∀ p ∈ evaluate_sim query dtm N,
        p.2 = cosine_similarity query (col dtm (p.1 - 1)))
    ∧ (evaluate_sim query dtm N).Pairwise (fun a b => b.2 ≤ a.2) := by
  refine ⟨?_, ?_, ?_⟩
  · have hperm : (evaluate_sim query dtm N).Perm (qd_similarities query dtm N) :=
      List.mergeSort_perm _ _
    refine (hperm.map Prod.fst).trans ?_
    rw [qd_similarities, List.map_map]
    exact List.Perm.refl _
  · intro p hp
    rw [evaluate_sim, rank_documents, List.mem_mergeSort, qd_similarities] at hp
    obtain ⟨d, _, rfl⟩ := List.mem_map.1 hp
    simp
  · have hs := @List.sorted_mergeSort (ℕ × ℝ)
      (fun a b => decide (b.2 ≤ a.2))
      (fun a b c hab hbc => by
        simp only [decide_eq_true_eq] at hab hbc ⊢
        exact le_trans hbc hab)
      (fun a b => by
        simp only [Bool.or_eq_true, decide_eq_true_eq]
        exact le_total b.2 a.2)
      (qd_similarities query dtm N)
    refine hs.imp ?_
    intro a b hab
    simpa using hab

theorem posting_lookup {l : List (ℕ × ℕ)} {d : ℕ}
    (hnd : (l.map Prod.fst).Nodup) {q : ℕ × ℕ} (hq : q ∈ l) (hqd : q.1 = d) :
    l.filter (fun p => p.1 == d) = [q]
    ∧ l.find? (fun p => p.1 == d) = some q := by
  induction l with
  | nil => cases hq
  | cons a l ih =>
    have hnd' : (l.map Prod.fst).Nodup := (List.nodup_cons.1 hnd).2
    have hhead : a.1 ∉ l.map Prod.fst := (List.nodup_cons.1 hnd).1
    rcases List.mem_cons.1 hq with rfl | hq'
    · have ha : (q.1 == d) = true := by simp [hqd]
      constructor
      · rw [List.filter_cons, if_pos ha]
        have hrest : l.filter (fun p => p.1 == d) = [] := by
          rw [List.filter_eq_nil_iff]
          intro p hp hpd
          have hmem : p.1 ∈ l.map Prod.fst := List.mem_map_of_mem Prod.fst hp
          have hpd' : p.1 = d := by simpa using hpd
          rw [hpd', ← hqd] at hmem
          exact hhead hmem
        rw [hrest]
      · exact List.find?_cons_of_pos l ha
    · have had : ¬ (a.1 == d) = true := by
        intro hcontra
        have : a.1 = d := by simpa using hcontra
        exact hhead (this ▸ hqd ▸ List.mem_map_of_mem Prod.fst hq')
      obtain ⟨h1, h2⟩ := ih hnd' hq'
      exact ⟨by rw [List.filter_cons, if_neg had, h1],
        by rw [List.find?_cons_of_neg l had, h2]⟩

theorem tempTfs_eq_nil (inv_index : InvIndex) (terms : List String)
    (docs : List ℕ) (d : ℕ) (hd : d ∉ docs) :
    tempTfs inv_index terms docs d = [] := by
  unfold tempTfs
  induction terms with
  | nil => rfl
  | cons t ts ih =>
    rw [List.flatMap_cons, ih]
    have hfil : (inv_index t).filter (fun p => p.1 == d && docs.contains p.1) = [] := by
      rw [List.filter_eq_nil_iff]
      intro p _ hp
      obtain ⟨hp1, hp2⟩ := Bool.and_eq_true_iff.1 hp
      have hpd : p.1 = d := by simpa using hp1
      rw [hpd] at hp2
      simp [hd] at hp2
    rw [hfil]
    rfl

theorem tempTfs_eq_map_tfOf (inv_index : InvIndex) (terms : List String)
    (docs : List ℕ) (d : ℕ) (hd : d ∈ docs)
    (hu : ∀ t ∈ terms, ((inv_index t).map Prod.fst).Nodup)
    (hex : ∀ t ∈ terms, ∃ p ∈ inv_index t, p.1 = d) :
    tempTfs inv_index terms docs d = terms.map (fun t => tfOf inv_index t d) := by
  unfold tempTfs
  induction terms with
  | nil => rfl
  | cons t ts ih =>
    rw [List.flatMap_cons, List.map_cons,
      ih (fun t' ht' => hu t' (List.mem_cons_of_mem t ht'))
        (fun t' ht' => hex t' (List.mem_cons_of_mem t ht'))]
    obtain ⟨q, hq, hqd⟩ := hex t (List.mem_cons_self t ts)
    have hcongr : (inv_index t).filter (fun p => p.1 == d && docs.contains p.1)
        = (inv_index t).filter (fun p => p.1 == d) := by
      refine List.filter_congr ?_
      intro p _
      by_cases hp : p.1 = d
      · simp [hp, hd]
      · simp [hp]
    obtain ⟨hfil, hfind⟩ := posting_lookup (hu t (List.mem_cons_self t ts)) hq hqd
    rw [hcongr, hfil]
    have htf : tfOf inv_index t d = q.2 := by
      rw [tfOf, hfind]
    rw [htf]
    rfl

/-- C2: under an inverted index consistent with the occurrence map (unique
document ids per posting list, every listed document id in `1..N`, and each
document of `docs(S)` present in the posting list of every term of `S`),
`calculate_tsf` has one row per termset with `N` columns; the cell of
termset `S` and document `d ∈ docs(S)` is `round(1 + log2(min tf), 3)` for
the minimum term frequency over the terms of `S` in `d`, and every cell
with `d ∉ docs(S)` is exactly `0`. -/
theorem calculate_tsf_spec (termsets : TermsetMap) (inv_index : InvIndex)
    (N : ℕ)
    (hsz : ∀ e ∈ termsets, e.1 ≠ [])
    (hu : ∀ e ∈ termsets, ∀ t ∈ e.1, ((inv_index t).map Prod.fst).Nodup)
    (hdocs : ∀ e ∈ termsets, ∀ d ∈ e.2,
      1 ≤ d ∧ d ≤ N ∧ ∀ t ∈ e.1, ∃ p ∈ inv_index t, p.1 = d) :
    (calculate_tsf termsets inv_index N).length = termsets.length
    ∧ (∀ row ∈ calculate_tsf termsets inv_index N, row.length = N)
    ∧ (∀ i, i < termsets.length →
        (∀ d ∈ (termsets.getD i ([], [])).2,
          ((calculate_tsf termsets inv_index N).getD i []).getD (d - 1) 0
            = round3 (1 + Real.logb 2
                ((minTf inv_index (termsets.getD i ([], [])).1 d : ℕ) : ℝ)))
        ∧ (∀ d, 1 ≤ d → d ≤ N → d ∉ (termsets.getD i ([], [])).2 →
          ((calculate_tsf termsets inv_index N).getD i []).getD (d - 1) 0
            = 0)) := by
  refine ⟨by simp [calculate_tsf], ?_, ?_⟩
  · intro row hrow
    obtain ⟨e, _, rfl⟩ := List.mem_map.1 hrow
    simp
  · intro i hi
    have hie : termsets.getD i ([], []) = termsets[i] := by
      rw [List.getD_eq_getElem?_getD, List.getElem?_eq_getElem hi]
      rfl
    have hmem : termsets[i] ∈ termsets := List.getElem_mem hi
    have hrow : (calculate_tsf termsets inv_index N).getD i []
        = (List.range N).map (fun c =>
            match (tempTfs inv_index (termsets[i]).1 (termsets[i]).2
                (c + 1)).min? with
            | some m => round3 (1 + Real.logb 2 (m : ℝ))
            | none => 0) := by
      rw [calculate_tsf, List.getD_eq_getElem?_getD, List.getElem?_map,
        List.getElem?_eq_getElem hi]
      rfl
    have hcell : ∀ d, 1 ≤ d → d ≤ N →
        ((calculate_tsf termsets inv_index N).getD i []).getD (d - 1) 0
          = match (tempTfs inv_index (termsets[i]).1 (termsets[i]).2
                d).min? with
            | some m => round3 (1 + Real.logb 2 (m : ℝ))
            | none => 0 := by
      intro d h1 h2
      rw [hrow, List.getD_eq_getElem?_getD, List.getElem?_map,
        List.getElem?_range (by omega : d - 1 < N), Option.map_some',
        Option.getD_some, (by omega : d - 1 + 1 = d)]
    rw [hie]
    constructor
    · intro d hd
      obtain ⟨h1, h2, hexd⟩ := hdocs termsets[i] hmem d hd
      rw [hcell d h1 h2,
        tempTfs_eq_map_tfOf inv_index (termsets[i]).1 (termsets[i]).2 d hd
          (hu termsets[i] hmem) hexd]
      cases hmin : ((termsets[i]).1.map (fun t => tfOf inv_index t d)).min? with
      | none =>
        exfalso
        rw [List.min?_eq_none_iff] at hmin
        exact (hsz termsets[i] hmem) (List.map_eq_nil_iff.1 hmin)
      | some m =>
        simp only [minTf, hmin, Option.getD_some]
    · intro d h1 h2 hd
      rw [hcell d h1 h2,
        tempTfs_eq_nil inv_index (termsets[i]).1 (termsets[i]).2 d hd]
      rfl

/-- Closed witness for C2: the Scenario A index with the termset `{a, b}`
occurring in documents `1` and `2`, `N = 2`. -/
theorem calculate_tsf_spec_witness :
    (calculate_tsf [([ "a", "b" ], [1, 2])] exInv 2).length
        = ([([ "a", "b" ], [1, 2])] : TermsetMap).length
    ∧ (∀ row ∈ calculate_tsf [([ "a", "b" ], [1, 2])] exInv 2, row.length = 2)
    ∧ (∀ i, i < ([([ "a", "b" ], [1, 2])] : TermsetMap).length →
        (∀ d ∈ (([([ "a", "b" ], [1, 2])] : TermsetMap).getD i ([], [])).2,
          ((calculate_tsf [([ "a", "b" ], [1, 2])] exInv 2).getD i []).getD (d - 1) 0
            = round3 (1 + Real.logb 2
                ((minTf exInv (([([ "a", "b" ], [1, 2])] : TermsetMap).getD i ([], [])).1 d : ℕ) : ℝ)))
        ∧ (∀ d, 1 ≤ d → d ≤ 2 → d ∉ (([([ "a", "b" ], [1, 2])] : TermsetMap).getD i ([], [])).2 →
          ((calculate_tsf [([ "a", "b" ], [1, 2])] exInv 2).getD i []).getD (d - 1) 0
            = 0)) :=
  calculate_tsf_spec [([ "a", "b" ], [1, 2])] exInv 2
    (by decide) (by decide) (by decide)
